import Mathlib

/-!
A shallow embedding of the namespace-hierarchy core of the sjasmplus
documentation tool (source file `src/hierarchyentry.ts`), together with
theorems about the comment-extraction algorithm, the tree lookup, the
description attachment pass and the enter/exit traversal.

Conventions of the embedding:
* JavaScript strings become `String`, arrays become `List`, numbers that
  are used as (possibly negative) line indices become `Int`.
* `string | undefined` becomes `Option String`; `Map<string, HierarchyEntry>`
  becomes an association list `List (String × HierarchyEntry)` (a JS `Map`
  iterates in insertion order, which the association list preserves).
* The adapter `ListFile.getMainLine` (file `listfile.ts`, not part of the
  embedded source) is threaded through as an abstract function parameter
  `gml : String → String`, following the spec's LineTextAdapter contract.
* Dotted label strings are represented by their lists of dot-separated
  segments: the source's split at the first `.` (`indexOf`/`substr`)
  corresponds to peeling off the head segment.
-/

/-- Whitespace characters recognised by the JavaScript regex class `\s`
(restricted to the ASCII range, which is all that occurs in listing files). -/
def isWSChar (c : Char) : Bool :=
  c = ' ' || c = '\t' || c = '\n' || c = '\r' || c = '\x0b' || c = '\x0c'

/-- The test `/^\s*$/.exec(line)` succeeding: the line consists of whitespace
only (possibly empty). -/
def isBlankLine (s : String) : Bool :=
  s.data.all isWSChar

/-- The match `/^\s*;(.*)/.exec(line)`, returning the capture group:
optional leading whitespace, then a semicolon, then arbitrary trailing text.
Since `;` is not whitespace, the greedy `\s*` matches exactly the maximal
whitespace run; a listing line contains no newline, so `(.*)` is the whole
rest of the line. -/
def matchComment (s : String) : Option String :=
  match s.data.dropWhile isWSChar with
  | ';' :: rest => some (String.mk rest)
  | _ => none

/-- JavaScript array read `lines[k]` for `k ≥ 0`: an out-of-range read yields
`undefined`, which the regex engine coerces to the string `"undefined"`
(a non-blank, non-comment string).  All claims below only exercise in-range
reads; the default merely keeps the embedding total. -/
def jsLine (lines : List String) (k : Nat) : String :=
  (lines.get? k).getD "undefined"

/-- The first loop of `HierarchyEntry.getSingleDescription`
(`hierarchyentry.ts` lines 84-97): starting from `k = lineNumber`, repeatedly
decrement `k`; stop with `none` when `k` runs below `0`, stop with `some k`
at the first non-blank line, and give up with `none` when a blank line is
found at distance `lineNumber - k ≥ 3` (the gap check runs only after the
non-blank test, exactly as in the source). -/
def skipBlankLines (lines : List String) (lineNumber : Int) (k : Int) : Option Nat :=
  if _h : k - 1 < 0 then none
  else if isBlankLine (jsLine lines (k - 1).toNat) then
    if lineNumber - (k - 1) ≥ 3 then none
    else skipBlankLines lines lineNumber (k - 1)
  else some (k - 1).toNat
termination_by (k + 1).toNat
decreasing_by
  simp_wf
  omega

/-- The second loop of `HierarchyEntry.getSingleDescription`
(`hierarchyentry.ts` lines 100-110): walk upwards from `k` while
`ListFile.getMainLine` of the line matches `/^\s*;(.*)/`, collecting the
capture groups; `unshift` puts them in top-to-bottom file order. -/
def collectComments (gml : String → String) (lines : List String) : Nat → List String
  | 0 =>
    match matchComment (gml (jsLine lines 0)) with
    | none => []
    | some c => [c]
  | k + 1 =>
    match matchComment (gml (jsLine lines (k + 1))) with
    | none => []
    | some c => collectComments gml lines k ++ [c]

/-- `HierarchyEntry.getSingleDescription(lineNumber, lines)`
(`hierarchyentry.ts` lines 81-114): skip at most two blank lines above the
label, then collect the contiguous comment block and join it with newlines.
If the blank-skipping loop aborts (start of file reached, or three blank
lines) the result is `undefined`, i.e. `none`. -/
def getSingleDescription (gml : String → String) (lineNumber : Int)
    (lines : List String) : Option String :=
  match skipBlankLines lines lineNumber lineNumber with
  | none => none
  | some k => some (String.intercalate "\n" (collectComments gml lines k))

/-- The blank-skipping loop runs at most three iterations (the gap check
fires at distance 3), so starting from `k = lineNumber` it is equal to this
closed, recursion-free form.  This is a proved characterisation of
`skipBlankLines`, not a separate model. -/
def skipBlankClosed (lines : List String) (ln : Int) : Option Nat :=
  if ln - 1 < 0 then none
  else if !isBlankLine (jsLine lines (ln - 1).toNat) then some (ln - 1).toNat
  else if ln - 2 < 0 then none
  else if !isBlankLine (jsLine lines (ln - 2).toNat) then some (ln - 2).toNat
  else if ln - 3 < 0 then none
  else if !isBlankLine (jsLine lines (ln - 3).toNat) then some (ln - 3).toNat
  else none

theorem skipBlankLines_eq_closed (lines : List String) (ln : Int) :
    skipBlankLines lines ln ln = skipBlankClosed lines ln := by
  rw [skipBlankLines, skipBlankClosed]
  by_cases h1 : ln - 1 < 0
  · simp [h1]
  · rw [dif_neg h1, if_neg h1]
    by_cases b1 : isBlankLine (jsLine lines (ln - 1).toNat)
    · have hg1 : ¬ (ln - (ln - 1) ≥ 3) := by omega
      rw [if_pos b1, if_neg hg1, skipBlankLines]
      simp only [b1, Bool.not_true, Bool.false_eq_true, if_false]
      by_cases h2 : ln - 1 - 1 < 0
      · rw [dif_pos h2, if_pos (by omega : ln - 2 < 0)]
      · rw [dif_neg h2, if_neg (by omega : ¬ ln - 2 < 0)]
        have e2 : ln - 1 - 1 = ln - 2 := by omega
        rw [e2]
        by_cases b2 : isBlankLine (jsLine lines (ln - 2).toNat)
        · have hg2 : ¬ (ln - (ln - 2) ≥ 3) := by omega
          rw [if_pos b2, if_neg hg2, skipBlankLines]
          simp only [b2, Bool.not_true, Bool.false_eq_true, if_false]
          by_cases h3 : ln - 2 - 1 < 0
          · rw [dif_pos h3, if_pos (by omega : ln - 3 < 0)]
          · rw [dif_neg h3, if_neg (by omega : ¬ ln - 3 < 0)]
            have e3 : ln - 2 - 1 = ln - 3 := by omega
            rw [e3]
            by_cases b3 : isBlankLine (jsLine lines (ln - 3).toNat)
            · have hg3 : ln - (ln - 3) ≥ 3 := by omega
              rw [if_pos b3, if_pos hg3, if_neg (by rw [b3]; exact fun h => nomatch h)]
            · have b3' := Bool.eq_false_iff.mpr b3
              rw [if_neg b3, if_pos (by rw [b3']; rfl)]
        · have b2' := Bool.eq_false_iff.mpr b2
          rw [if_neg b2, if_pos (by rw [b2']; rfl)]
    · have b1' := Bool.eq_false_iff.mpr b1
      rw [if_neg b1, if_pos (by rw [b1']; rfl)]

/-- The tree node of `hierarchyentry.ts` (class `HierarchyEntry`):
a label line number (`-1` when the node has no directly associated source
label), the ordered child map `elements`, and the optional `description`.
The constructor `new HierarchyEntry()` is `emptyEntry` below. -/
inductive HierarchyEntry : Type where
  | mk (lineNumber : Int) (elements : List (String × HierarchyEntry))
       (description : Option String)

namespace HierarchyEntry

def lineNumber : HierarchyEntry → Int
  | mk n _ _ => n

def elements : HierarchyEntry → List (String × HierarchyEntry)
  | mk _ es _ => es

def description : HierarchyEntry → Option String
  | mk _ _ d => d

end HierarchyEntry

/-- `new HierarchyEntry()`: sentinel line number `-1`, empty child map,
no description. -/
def emptyEntry : HierarchyEntry := HierarchyEntry.mk (-1) [] none

/-- `this.elements.get(key)` of the JS `Map`: the value stored under `key`,
or `undefined`.  On the association list this is the first entry with the
given key (keys are unique among siblings). -/
def mapGet (es : List (String × HierarchyEntry)) (key : String) :
    Option HierarchyEntry :=
  match es with
  | [] => none
  | (k, c) :: rest => if k = key then some c else mapGet rest key

/-- `HierarchyEntry.getEntry(label)` (`hierarchyentry.ts` lines 37-52), with
the dotted label given as its nonempty list of dot-separated segments:
a single segment is a direct child lookup; otherwise look up the first
segment and recurse with the remaining segments, returning `undefined` as
soon as a segment is missing.  (The empty segment list does not arise from
any dotted string; it is mapped to `none`.) -/
def HierarchyEntry.getEntry : HierarchyEntry → List String → Option HierarchyEntry
  | _, [] => none
  | mk _ es _, [s] => mapGet es s
  | mk _ es _, s :: rest =>
    match mapGet es s with
    | none => none
    | some e => e.getEntry rest

/-- Modelled from the spec: replacing the value stored under an existing key
in place (no reordering), or appending a new key at the end, as a JS `Map`
`set` does.  Used only by `insertPath`; the class `HierarchyEntry` itself
has no insertion method in `hierarchyentry.ts` (the tree builder lives in a
source file that is not part of the embedded sources). -/
def replaceOrAppend : List (String × HierarchyEntry) → String → HierarchyEntry →
    List (String × HierarchyEntry)
  | [], s, c => [(s, c)]
  | (k, c0) :: rest, s, c =>
    if k = s then (k, c) :: rest else (k, c0) :: replaceOrAppend rest s c

/-- Modelled from the spec: path-preserving insertion (spec section 4.1).
Walk/create nodes segment by segment from the root; segments that do not
exist yet are created with sentinel line number and empty children and are
appended at the end of the child map (preserving first-insertion order);
the final segment's node has its line number set (for a duplicate path the
last insertion wins and nothing is reordered, spec section 6).  The tree
builder that performs this insertion is not part of the embedded sources. -/
def insertPath (ln : Int) : HierarchyEntry → List String → HierarchyEntry
  | HierarchyEntry.mk _ es d, [] => HierarchyEntry.mk ln es d
  | HierarchyEntry.mk n es d, s :: rest =>
    let c0 := (mapGet es s).getD emptyEntry
    HierarchyEntry.mk n (replaceOrAppend es s (insertPath ln c0 rest)) d

/-- Modelled from the spec: the tree builder (spec section 2, TreeBuilder)
folds the ordered list of (label path, line number) pairs into the tree,
starting from a fresh root node. -/
def buildTree (ps : List (List String × Int)) : HierarchyEntry :=
  ps.foldl (fun t p => insertPath p.2 t p.1) emptyEntry

mutual

/-- `HierarchyEntry.setDescriptions(lines)` (`hierarchyentry.ts` lines
61-69): set this node's description from its own line number, then recurse
into all children in map order.  The adapter argument `gml` stands for
`ListFile.getMainLine` used inside `getSingleDescription`. -/
def HierarchyEntry.setDescriptions (gml : String → String) (lines : List String) :
    HierarchyEntry → HierarchyEntry
  | HierarchyEntry.mk n es _ =>
    HierarchyEntry.mk n (setDescriptionsList gml lines es)
      (getSingleDescription gml n lines)

def setDescriptionsList (gml : String → String) (lines : List String) :
    List (String × HierarchyEntry) → List (String × HierarchyEntry)
  | [] => []
  | (s, c) :: rest =>
    (s, HierarchyEntry.setDescriptions gml lines c) :: setDescriptionsList gml lines rest

end

/-- One callback invocation of `HierarchyEntry.iterate`: the enter or exit
handler applied to the fully-qualified label and the entry. -/
inductive VisitEvent : Type where
  | enter (label : String) (entry : HierarchyEntry)
  | exit (label : String) (entry : HierarchyEntry)

/-- The label computation of `iterate` (`hierarchyentry.ts` lines 130-132):
prepend the accumulated previous label and a dot unless it is empty. -/
def totalLabelOf (prevLabel label : String) : String :=
  if prevLabel.length > 0 then prevLabel ++ "." ++ label else label

mutual

/-- `HierarchyEntry.iterate(enterHandler, exitHandler, prevLabel)`
(`hierarchyentry.ts` lines 126-138), purified: instead of invoking the two
callbacks for their side effects, return the list of callback invocations
in invocation order.  For every child in map order: enter event, the
child's own iteration, exit event. -/
def HierarchyEntry.iterate (prevLabel : String) : HierarchyEntry → List VisitEvent
  | HierarchyEntry.mk _ es _ => iterateList prevLabel es

def iterateList (prevLabel : String) :
    List (String × HierarchyEntry) → List VisitEvent
  | [] => []
  | (label, entry) :: rest =>
    (VisitEvent.enter (totalLabelOf prevLabel label) entry ::
      (HierarchyEntry.iterate (totalLabelOf prevLabel label) entry ++
        [VisitEvent.exit (totalLabelOf prevLabel label) entry])) ++
      iterateList prevLabel rest

end

mutual

/-- All nodes of the tree, the node itself included, in pre-order. -/
def allNodes : HierarchyEntry → List HierarchyEntry
  | HierarchyEntry.mk n es d => HierarchyEntry.mk n es d :: allNodesList es

def allNodesList : List (String × HierarchyEntry) → List HierarchyEntry
  | [] => []
  | (_, c) :: rest => allNodes c ++ allNodesList rest

end

mutual

/-- Specification-side description of the traversal (spec section 4.3):
the strict descendants of a node listed depth-first in child-map order,
each paired with its fully-qualified dotted label. -/
def fqPreOrder (prevLabel : String) : HierarchyEntry → List (String × HierarchyEntry)
  | HierarchyEntry.mk _ es _ => fqPreOrderList prevLabel es

def fqPreOrderList (prevLabel : String) :
    List (String × HierarchyEntry) → List (String × HierarchyEntry)
  | [] => []
  | (s, c) :: rest =>
    (totalLabelOf prevLabel s, c) ::
      (fqPreOrder (totalLabelOf prevLabel s) c ++ fqPreOrderList prevLabel rest)

end

mutual

/-- Specification-side post-order companion of `fqPreOrder`: every node
listed after all of its descendants. -/
def fqPostOrder (prevLabel : String) : HierarchyEntry → List (String × HierarchyEntry)
  | HierarchyEntry.mk _ es _ => fqPostOrderList prevLabel es

def fqPostOrderList (prevLabel : String) :
    List (String × HierarchyEntry) → List (String × HierarchyEntry)
  | [] => []
  | (s, c) :: rest =>
    (fqPostOrder (totalLabelOf prevLabel s) c ++ [(totalLabelOf prevLabel s, c)]) ++
      fqPostOrderList prevLabel rest

end

mutual

/-- The tree with every description removed: the projection of a node to the
state that `setDescriptions` is not allowed to change (line numbers, child
keys, child order, tree shape). -/
def eraseDescriptions : HierarchyEntry → HierarchyEntry
  | HierarchyEntry.mk n es _ => HierarchyEntry.mk n (eraseDescriptionsList es) none

def eraseDescriptionsList :
    List (String × HierarchyEntry) → List (String × HierarchyEntry)
  | [] => []
  | (s, c) :: rest => (s, eraseDescriptions c) :: eraseDescriptionsList rest

end

/-- The enter events of an event list, as (label, entry) pairs. -/
def enterPairs (evs : List VisitEvent) : List (String × HierarchyEntry) :=
  evs.filterMap fun ev =>
    match ev with
    | VisitEvent.enter l e => some (l, e)
    | VisitEvent.exit _ _ => none

/-- The exit events of an event list, as (label, entry) pairs. -/
def exitPairs (evs : List VisitEvent) : List (String × HierarchyEntry) :=
  evs.filterMap fun ev =>
    match ev with
    | VisitEvent.enter _ _ => none
    | VisitEvent.exit l e => some (l, e)

/-- The kind (enter = `true`) and label of an event. -/
def eventShape : VisitEvent → Bool × String
  | VisitEvent.enter l _ => (true, l)
  | VisitEvent.exit l _ => (false, l)

theorem getSingleDescription_eq (gml : String → String) (ln : Int) (lines : List String) :
    getSingleDescription gml ln lines =
      match skipBlankClosed lines ln with
      | none => none
      | some k => some (String.intercalate "\n" (collectComments gml lines k)) := by
  rw [getSingleDescription, skipBlankLines_eq_closed]

/-- Nested induction over the tree: to prove a property of every node it
suffices to prove it for a node assuming it for all children. -/
theorem HierarchyEntry.indOn {P : HierarchyEntry → Prop}
    (step : ∀ n es d, (∀ s c, (s, c) ∈ es → P c) → P (HierarchyEntry.mk n es d)) :
    ∀ t, P t
  | HierarchyEntry.mk n es d =>
    step n es d (fun _s c _hc => HierarchyEntry.indOn step c)
termination_by t => sizeOf t
decreasing_by
  have h1 := List.sizeOf_lt_of_mem _hc
  simp only [Prod.mk.sizeOf_spec] at h1
  simp only [HierarchyEntry.mk.sizeOf_spec]
  omega

theorem getEntry_emptyEntry : ∀ q : List String, emptyEntry.getEntry q = none := by
  intro q
  rcases q with _ | ⟨s, _ | ⟨v, r⟩⟩ <;> rfl

theorem mapGet_replaceOrAppend (es : List (String × HierarchyEntry)) (s : String)
    (c : HierarchyEntry) (key : String) :
    mapGet (replaceOrAppend es s c) key = if key = s then some c else mapGet es key := by
  induction es with
  | nil =>
    by_cases h : key = s
    · subst h
      simp [replaceOrAppend, mapGet]
    · have h' : ¬ s = key := fun h2 => h h2.symm
      simp [replaceOrAppend, mapGet, h, h']
  | cons hd tl ih =>
    rcases hd with ⟨k, c0⟩
    by_cases hk : k = s
    · subst hk
      simp only [replaceOrAppend, if_pos rfl, mapGet]
      by_cases hkk : k = key
      · subst hkk
        rw [if_pos rfl, if_pos rfl]
      · have h' : ¬ key = k := fun h2 => hkk h2.symm
        rw [if_neg hkk, if_neg h', if_neg hkk]
    · simp only [replaceOrAppend, if_neg hk, mapGet, ih]
      by_cases hkk : k = key
      · subst hkk
        rw [if_pos rfl, if_neg (hk : ¬ k = s), if_pos rfl]
      · rw [if_neg hkk]
        by_cases hks : key = s
        · rw [if_pos hks, if_pos hks]
        · rw [if_neg hks, if_neg hks, if_neg hkk]

/-- Inserting a path changes exactly the set of nonempty paths with a node:
afterwards a lookup succeeds iff it succeeded before or the looked-up path
is a (full or partial) prefix of the freshly inserted path. -/
theorem getEntry_insertPath (ln : Int) :
    ∀ (p : List String) (t : HierarchyEntry) (q : List String), q ≠ [] →
      (((insertPath ln t p).getEntry q).isSome = true ↔
        (t.getEntry q).isSome = true ∨ q <+: p) := by
  intro p
  induction p with
  | nil =>
    intro t q hq
    rcases t with ⟨n, es, d⟩
    have h1 : insertPath ln (HierarchyEntry.mk n es d) [] = HierarchyEntry.mk ln es d := rfl
    have h2 : (HierarchyEntry.mk ln es d).getEntry q = (HierarchyEntry.mk n es d).getEntry q := by
      rcases q with _ | ⟨s, _ | ⟨v, r⟩⟩ <;> rfl
    rw [h1, h2]
    simp [List.prefix_nil, hq]
  | cons s rest ih =>
    intro t q hq
    rcases t with ⟨n, es, d⟩
    rcases q with _ | ⟨u, r⟩
    · exact absurd rfl hq
    rcases r with _ | ⟨v, r'⟩
    · show ((HierarchyEntry.mk n
        (replaceOrAppend es s (insertPath ln ((mapGet es s).getD emptyEntry) rest)) d).getEntry
          [u]).isSome = true ↔ _
      simp only [HierarchyEntry.getEntry]
      rw [mapGet_replaceOrAppend]
      by_cases hu : u = s
      · subst hu
        simp [List.cons_prefix_cons]
      · simp [hu, List.cons_prefix_cons]
    · show ((HierarchyEntry.mk n
        (replaceOrAppend es s (insertPath ln ((mapGet es s).getD emptyEntry) rest)) d).getEntry
          (u :: v :: r')).isSome = true ↔ _
      simp only [HierarchyEntry.getEntry]
      rw [mapGet_replaceOrAppend]
      by_cases hu : u = s
      · subst hu
        cases hes : mapGet es u with
        | some c =>
          have hih := ih c (v :: r') (by simp)
          simp [hes, List.cons_prefix_cons, hih, Option.getD]
        | none =>
          have hih := ih emptyEntry (v :: r') (by simp)
          simp [hes, hih, getEntry_emptyEntry, List.cons_prefix_cons]
      · simp [hu, List.cons_prefix_cons]

theorem getEntry_foldl (q : List String) (hq : q ≠ []) :
    ∀ (ps : List (List String × Int)) (t : HierarchyEntry),
      (((ps.foldl (fun t p => insertPath p.2 t p.1) t).getEntry q).isSome = true ↔
        (t.getEntry q).isSome = true ∨ ∃ p, p ∈ ps ∧ q <+: p.1) := by
  intro ps
  induction ps with
  | nil => simp
  | cons a ps ih =>
    intro t
    rw [List.foldl_cons, ih, getEntry_insertPath _ _ _ _ hq]
    constructor
    · rintro ((h | h) | ⟨p, hp, hpre⟩)
      · exact Or.inl h
      · exact Or.inr ⟨a, List.mem_cons_self a ps, h⟩
      · exact Or.inr ⟨p, List.mem_cons_of_mem a hp, hpre⟩
    · rintro (h | ⟨p, hp, hpre⟩)
      · exact Or.inl (Or.inl h)
      · rcases List.mem_cons.mp hp with h1 | h1
        · exact Or.inl (Or.inr (h1 ▸ hpre))
        · exact Or.inr ⟨p, h1, hpre⟩

theorem enterPairs_append (a b : List VisitEvent) :
    enterPairs (a ++ b) = enterPairs a ++ enterPairs b := by
  simp [enterPairs]

theorem exitPairs_append (a b : List VisitEvent) :
    exitPairs (a ++ b) = exitPairs a ++ exitPairs b := by
  simp [exitPairs]

theorem enterPairs_iterateList (es : List (String × HierarchyEntry)) (p : String)
    (h : ∀ s c, (s, c) ∈ es → ∀ q, enterPairs (HierarchyEntry.iterate q c) = fqPreOrder q c) :
    enterPairs (iterateList p es) = fqPreOrderList p es := by
  induction es with
  | nil => rfl
  | cons hd tl ih =>
    rcases hd with ⟨s, c⟩
    simp only [iterateList, fqPreOrderList, enterPairs_append, List.cons_append]
    have h1 := h s c (List.mem_cons_self _ _) (totalLabelOf p s)
    have h2 := ih (fun s2 c2 hm => h s2 c2 (List.mem_cons_of_mem _ hm))
    simp [enterPairs, List.filterMap_append] at h1 h2 ⊢
    simp [h1, h2]

/-- The enter events of the traversal are exactly the fully-qualified
pre-order listing of the strict descendants. -/
theorem enterPairs_iterate (t : HierarchyEntry) :
    ∀ p, enterPairs (HierarchyEntry.iterate p t) = fqPreOrder p t := by
  induction t using HierarchyEntry.indOn with
  | step n es d ih =>
    intro p
    show enterPairs (iterateList p es) = fqPreOrderList p es
    exact enterPairs_iterateList es p (fun s c hm q => ih s c hm q)

theorem exitPairs_iterateList (es : List (String × HierarchyEntry)) (p : String)
    (h : ∀ s c, (s, c) ∈ es → ∀ q, exitPairs (HierarchyEntry.iterate q c) = fqPostOrder q c) :
    exitPairs (iterateList p es) = fqPostOrderList p es := by
  induction es with
  | nil => rfl
  | cons hd tl ih =>
    rcases hd with ⟨s, c⟩
    simp only [iterateList, fqPostOrderList, exitPairs_append, List.cons_append]
    have h1 := h s c (List.mem_cons_self _ _) (totalLabelOf p s)
    have h2 := ih (fun s2 c2 hm => h s2 c2 (List.mem_cons_of_mem _ hm))
    simp [exitPairs, List.filterMap_append] at h1 h2 ⊢
    simp [h1, h2]

/-- The exit events of the traversal are exactly the fully-qualified
post-order listing of the strict descendants. -/
theorem exitPairs_iterate (t : HierarchyEntry) :
    ∀ p, exitPairs (HierarchyEntry.iterate p t) = fqPostOrder p t := by
  induction t using HierarchyEntry.indOn with
  | step n es d ih =>
    intro p
    show exitPairs (iterateList p es) = fqPostOrderList p es
    exact exitPairs_iterateList es p (fun s c hm q => ih s c hm q)

theorem fqPreOrderList_map_snd (es : List (String × HierarchyEntry)) (p : String)
    (h : ∀ s c, (s, c) ∈ es → ∀ q, (fqPreOrder q c).map Prod.snd = allNodesList c.elements) :
    (fqPreOrderList p es).map Prod.snd = allNodesList es := by
  induction es with
  | nil => rfl
  | cons hd tl ih =>
    rcases hd with ⟨s, c⟩
    have h1 := h s c (List.mem_cons_self _ _) (totalLabelOf p s)
    have h2 := ih (fun s2 c2 hm => h s2 c2 (List.mem_cons_of_mem _ hm))
    rcases c with ⟨cn, ces, cd⟩
    simp only [fqPreOrderList, allNodesList, allNodes, List.map_cons, List.map_append, h2]
    simp only [HierarchyEntry.elements] at h1
    simp [h1]

/-- Pre-order pairs project to exactly the strict-descendant node list:
every non-root node is visited exactly once. -/
theorem fqPreOrder_map_snd (t : HierarchyEntry) :
    ∀ p, (fqPreOrder p t).map Prod.snd = allNodesList t.elements := by
  induction t using HierarchyEntry.indOn with
  | step n es d ih =>
    intro p
    show (fqPreOrderList p es).map Prod.snd = allNodesList es
    exact fqPreOrderList_map_snd es p (fun s c hm q => ih s c hm q)

theorem getSingleDescription_of_neg (gml : String → String) (ln : Int)
    (lines : List String) (h : ln < 0) : getSingleDescription gml ln lines = none := by
  rw [getSingleDescription_eq, skipBlankClosed, if_pos (by omega : ln - 1 < 0)]

theorem eraseDescriptionsList_setDescriptionsList (gml : String → String)
    (lines : List String) (es : List (String × HierarchyEntry))
    (h : ∀ s c, (s, c) ∈ es →
      eraseDescriptions (HierarchyEntry.setDescriptions gml lines c) = eraseDescriptions c) :
    eraseDescriptionsList (setDescriptionsList gml lines es) = eraseDescriptionsList es := by
  induction es with
  | nil => rfl
  | cons hd tl ih =>
    rcases hd with ⟨s, c⟩
    simp only [setDescriptionsList, eraseDescriptionsList]
    rw [h s c (List.mem_cons_self _ _), ih (fun s2 c2 hm => h s2 c2 (List.mem_cons_of_mem _ hm))]

/-- `setDescriptions` changes only descriptions: erasing all descriptions
before or after running it gives the same tree. -/
theorem eraseDescriptions_setDescriptions (gml : String → String) (lines : List String)
    (t : HierarchyEntry) :
    eraseDescriptions (HierarchyEntry.setDescriptions gml lines t) = eraseDescriptions t := by
  induction t using HierarchyEntry.indOn with
  | step n es d ih =>
    show eraseDescriptions (HierarchyEntry.mk n (setDescriptionsList gml lines es) _) = _
    simp only [eraseDescriptions]
    rw [eraseDescriptionsList_setDescriptionsList gml lines es (fun s c hm => ih s c hm)]

theorem setDescriptionsList_idem (gml : String → String) (lines : List String)
    (es : List (String × HierarchyEntry))
    (h : ∀ s c, (s, c) ∈ es →
      HierarchyEntry.setDescriptions gml lines (HierarchyEntry.setDescriptions gml lines c) =
        HierarchyEntry.setDescriptions gml lines c) :
    setDescriptionsList gml lines (setDescriptionsList gml lines es) =
      setDescriptionsList gml lines es := by
  induction es with
  | nil => rfl
  | cons hd tl ih =>
    rcases hd with ⟨s, c⟩
    simp only [setDescriptionsList]
    rw [h s c (List.mem_cons_self _ _), ih (fun s2 c2 hm => h s2 c2 (List.mem_cons_of_mem _ hm))]

theorem setDescriptions_idem (gml : String → String) (lines : List String)
    (t : HierarchyEntry) :
    HierarchyEntry.setDescriptions gml lines (HierarchyEntry.setDescriptions gml lines t) =
      HierarchyEntry.setDescriptions gml lines t := by
  induction t using HierarchyEntry.indOn with
  | step n es d ih =>
    show HierarchyEntry.setDescriptions gml lines
        (HierarchyEntry.mk n (setDescriptionsList gml lines es) (getSingleDescription gml n lines)) = _
    simp only [HierarchyEntry.setDescriptions]
    rw [setDescriptionsList_idem gml lines es (fun s c hm => ih s c hm)]

theorem allNodesList_setDescriptionsList (gml : String → String) (lines : List String)
    (es : List (String × HierarchyEntry))
    (h : ∀ s c, (s, c) ∈ es → ∀ e,
      e ∈ allNodes (HierarchyEntry.setDescriptions gml lines c) →
        e.description = getSingleDescription gml e.lineNumber lines) :
    ∀ e, e ∈ allNodesList (setDescriptionsList gml lines es) →
      e.description = getSingleDescription gml e.lineNumber lines := by
  induction es with
  | nil => intro e he; exact absurd he (by simp [setDescriptionsList, allNodesList])
  | cons hd tl ih =>
    rcases hd with ⟨s, c⟩
    intro e he
    simp only [setDescriptionsList, allNodesList, List.mem_append] at he
    rcases he with he | he
    · exact h s c (List.mem_cons_self _ _) e he
    · exact ih (fun s2 c2 hm => h s2 c2 (List.mem_cons_of_mem _ hm)) e he

/-- After `setDescriptions` runs, every node of the resulting tree (the root
included) carries exactly the description that `getSingleDescription`
computes for its own line number. -/
theorem description_after_setDescriptions (gml : String → String) (lines : List String)
    (t : HierarchyEntry) :
    ∀ e, e ∈ allNodes (HierarchyEntry.setDescriptions gml lines t) →
      e.description = getSingleDescription gml e.lineNumber lines := by
  induction t using HierarchyEntry.indOn with
  | step n es d ih =>
    intro e he
    simp only [HierarchyEntry.setDescriptions, allNodes, List.mem_cons] at he
    rcases he with he | he
    · subst he
      rfl
    · exact allNodesList_setDescriptionsList gml lines es (fun s c hm => ih s c hm) e he

theorem collectComments_of_none (gml : String → String) (lines : List String) (k : Nat)
    (h : matchComment (gml (jsLine lines k)) = none) :
    collectComments gml lines k = [] := by
  cases k <;> simp [collectComments, h]

theorem collectComments_succ_some (gml : String → String) (lines : List String) (k : Nat)
    (c : String) (h : matchComment (gml (jsLine lines (k + 1))) = some c) :
    collectComments gml lines (k + 1) = collectComments gml lines k ++ [c] := by
  simp [collectComments, h]

/-- C1: blank-line tolerance of description extraction.  For a label at line
`n ≥ 3` with blank lines at `n-1` and `n-2`: if line `n-3` is non-blank and
its logical text is a comment line capturing `c`, extraction succeeds and
returns the comment block ending at line `n-3` (whose last captured line is
`c`); if line `n-3` is blank as well, the three consecutive blank lines
exhaust the tolerance and extraction returns absence. -/
theorem claim1_blank_line_tolerance (gml : String → String) (lines : List String)
    (n : Nat) (c : String) (h3 : 3 ≤ n)
    (hb1 : isBlankLine (jsLine lines (n - 1)) = true)
    (hb2 : isBlankLine (jsLine lines (n - 2)) = true) :
    (isBlankLine (jsLine lines (n - 3)) = false →
      matchComment (gml (jsLine lines (n - 3))) = some c →
      getSingleDescription gml (n : Int) lines =
          some (String.intercalate "\n" (collectComments gml lines (n - 3))) ∧
        (collectComments gml lines (n - 3)).getLast? = some c) ∧
    (isBlankLine (jsLine lines (n - 3)) = true →
      getSingleDescription gml (n : Int) lines = none) := by
  have e1 : (((n : Nat) : Int) - 1).toNat = n - 1 := by omega
  have e2 : (((n : Nat) : Int) - 2).toNat = n - 2 := by omega
  have e3 : (((n : Nat) : Int) - 3).toNat = n - 3 := by omega
  constructor
  · intro hnb hc
    have hsb : skipBlankClosed lines ((n : Nat) : Int) = some (n - 3) := by
      rw [skipBlankClosed, e1, e2, e3, hb1, hb2, hnb]
      rw [if_neg (by omega : ¬ (((n : Nat) : Int) - 1 < 0))]
      rw [if_neg (by simp : ¬ ((!true) = true))]
      rw [if_neg (by omega : ¬ (((n : Nat) : Int) - 2 < 0))]
      rw [if_neg (by simp : ¬ ((!true) = true))]
      rw [if_neg (by omega : ¬ (((n : Nat) : Int) - 3 < 0))]
      rw [if_pos (show (!false) = true from rfl)]
    constructor
    · rw [getSingleDescription_eq, hsb]
    · rcases hk : n - 3 with _ | m
      · rw [hk] at hc
        simp [collectComments, hc]
      · rw [hk] at hc
        rw [collectComments_succ_some gml lines m c hc]
        simp
  · intro hb3
    have hsb : skipBlankClosed lines ((n : Nat) : Int) = none := by
      rw [skipBlankClosed, e1, e2, e3, hb1, hb2, hb3]
      rw [if_neg (by omega : ¬ (((n : Nat) : Int) - 1 < 0))]
      rw [if_neg (by simp : ¬ ((!true) = true))]
      rw [if_neg (by omega : ¬ (((n : Nat) : Int) - 2 < 0))]
      rw [if_neg (by simp : ¬ ((!true) = true))]
      rw [if_neg (by omega : ¬ (((n : Nat) : Int) - 3 < 0))]
      rw [if_neg (by simp : ¬ ((!true) = true))]
    rw [getSingleDescription_eq, hsb]

/-- Witness for C1 at `n = 3`: with a comment directly above two blank lines
the comment is found; with three blank lines the result is absence. -/
theorem claim1_witness :
    getSingleDescription id 3 [";hello", "", ""] = some "hello" ∧
      getSingleDescription id 3 ["", "", ""] = none := by
  constructor
  · have h := (claim1_blank_line_tolerance id [";hello", "", ""] 3 "hello"
      (by decide) (by decide) (by decide)).1 (by decide) (by decide)
    exact h.1.trans (by decide)
  · exact (claim1_blank_line_tolerance id ["", "", ""] 3 ""
      (by decide) (by decide) (by decide)).2 (by decide)

/-- C2 counterexample: the claim says a node with a non-sentinel line number
never ends up with an absent description, but a node whose label sits at
line 4 under three blank lines gets `undefined` from the blank-line-gap
abort: after `setDescriptions` its line number is `4 ≥ 0` and its
description is absent. -/
theorem claim2_counterexample :
    ((HierarchyEntry.setDescriptions id ["", "", "", "", "label"]
        (HierarchyEntry.mk (-1) [("x", HierarchyEntry.mk 4 [] none)] none)).getEntry
          ["x"]).map (fun e => (e.lineNumber, e.description)) =
      some ((4 : Int), (none : Option String)) := by
  have hg4 : getSingleDescription id 4 ["", "", "", "", "label"] = none := by
    rw [getSingleDescription_eq]
    decide
  have hgneg : getSingleDescription id (-1) ["", "", "", "", "label"] = none :=
    getSingleDescription_of_neg id (-1) _ (by omega)
  simp [HierarchyEntry.setDescriptions, setDescriptionsList, hg4, hgneg,
    HierarchyEntry.getEntry, mapGet, HierarchyEntry.lineNumber, HierarchyEntry.description]

/-- C2 as amended: after `setDescriptions` every node's description is
exactly what `getSingleDescription` yields for its line number: a joined
comment string, the empty string, or absent; a sentinel (negative) line
number always yields absence, but absence also occurs for non-sentinel line
numbers when the upward scan aborts (start of file or blank-line gap). -/
theorem claim2_three_way_description (gml : String → String) (lines : List String)
    (t : HierarchyEntry) :
    ∀ e, e ∈ allNodes (HierarchyEntry.setDescriptions gml lines t) →
      e.description = getSingleDescription gml e.lineNumber lines ∧
        (e.lineNumber < 0 → e.description = none) := by
  intro e he
  have h := description_after_setDescriptions gml lines t e he
  exact ⟨h, fun hneg => h.trans (getSingleDescription_of_neg gml _ lines hneg)⟩

/-- Witness for C2 (amended) at the root of a fresh tree. -/
theorem claim2_witness :
    (HierarchyEntry.mk (-1) [] none).description =
        getSingleDescription id (HierarchyEntry.mk (-1) [] none).lineNumber ["x"] ∧
      ((HierarchyEntry.mk (-1) [] none).lineNumber < 0 →
        (HierarchyEntry.mk (-1) [] none).description = none) := by
  have hg : getSingleDescription id (-1) ["x"] = none :=
    getSingleDescription_of_neg id (-1) _ (by omega)
  have hm : HierarchyEntry.mk (-1) [] none ∈
      allNodes (HierarchyEntry.setDescriptions id ["x"] emptyEntry) := by
    simp [HierarchyEntry.setDescriptions, setDescriptionsList, emptyEntry, allNodes,
      allNodesList, hg]
  exact claim2_three_way_description id ["x"] emptyEntry _ hm

/-- C3 counterexample: the claim says `getEntry` of a proper prefix of an
inserted path returns absence, but after inserting `a.b` the lookup of the
proper prefix `a` returns the implicitly created intermediate node. -/
theorem claim3_counterexample :
    ((buildTree [(["a", "b"], 7)]).getEntry ["a"]).isSome = true := by
  decide

/-- C3 as amended: in a tree built from an ordered list of label paths, a
nonempty lookup path finds a node exactly when it is a (full or proper)
prefix of some inserted path.  In particular every inserted path finds the
node insertion created for it, a nonexistent sibling segment yields
absence, but a proper prefix yields the implicitly created intermediate
node rather than absence. -/
theorem claim3_lookup (ps : List (List String × Int)) (q : List String) (hq : q ≠ []) :
    ((buildTree ps).getEntry q).isSome = true ↔ ∃ p, p ∈ ps ∧ q <+: p.1 := by
  rw [buildTree, getEntry_foldl q hq ps emptyEntry]
  simp [getEntry_emptyEntry]

/-- Witness for C3 (amended): the inserted path `a.b` is found. -/
theorem claim3_witness :
    ((buildTree [(["a", "b"], 7)]).getEntry ["a", "b"]).isSome = true :=
  (claim3_lookup [(["a", "b"], 7)] ["a", "b"] (by simp)).mpr
    ⟨(["a", "b"], 7), by simp, ⟨[], rfl⟩⟩

/-- C4: traversal completeness, ordering and pairing.  For every tree the
enter events are exactly the fully-qualified pre-order listing of the
strict descendants (so every non-root node is entered exactly once, in
child-insertion order, before its descendants), the exit events are exactly
the fully-qualified post-order listing (so every node is exited exactly
once, with the same fully-qualified label, after its descendants), the
pre-order listing enumerates exactly the strict-descendant nodes (the root
never triggers a callback), and for the tree built from `a.b.c`, `a.b.d`,
`a.e` the full event sequence is the expected one. -/
theorem claim4_traversal :
    (∀ (p : String) (t : HierarchyEntry),
        enterPairs (HierarchyEntry.iterate p t) = fqPreOrder p t ∧
          exitPairs (HierarchyEntry.iterate p t) = fqPostOrder p t ∧
          (fqPreOrder p t).map Prod.snd = allNodesList t.elements) ∧
      (HierarchyEntry.iterate ""
          (buildTree [(["a", "b", "c"], 1), (["a", "b", "d"], 2), (["a", "e"], 3)])).map
            eventShape =
        [(true, "a"), (true, "a.b"), (true, "a.b.c"), (false, "a.b.c"),
          (true, "a.b.d"), (false, "a.b.d"), (false, "a.b"),
          (true, "a.e"), (false, "a.e"), (false, "a")] := by
  constructor
  · intro p t
    exact ⟨enterPairs_iterate t p, exitPairs_iterate t p, fqPreOrder_map_snd t p⟩
  · decide

/-- C5: when the blank-skipping scan finds a non-blank line within the
tolerance but the comment scan captures zero lines, the result is the empty
string, which is distinct from the absence value. -/
theorem claim5_empty_vs_absent (gml : String → String) (lines : List String)
    (ln : Int) (k : Nat) (hskip : skipBlankLines lines ln ln = some k)
    (hempty : collectComments gml lines k = []) :
    getSingleDescription gml ln lines = some "" ∧
      getSingleDescription gml ln lines ≠ none := by
  have h : getSingleDescription gml ln lines = some "" := by
    unfold getSingleDescription
    rw [hskip]
    show some (String.intercalate "\n" (collectComments gml lines k)) = some ""
    rw [hempty]
    rfl
  exact ⟨h, by rw [h]; exact fun hx => nomatch hx⟩

/-- Witness for C5: a label at line 1 directly above a non-comment line. -/
theorem claim5_witness :
    getSingleDescription id 1 ["code"] = some "" ∧
      getSingleDescription id 1 ["code"] ≠ none :=
  claim5_empty_vs_absent id ["code"] 1 0
    (by rw [skipBlankLines_eq_closed]; decide) (by decide)

/-- C6: description extraction returns absence whenever the line number is
negative (the sentinel), and whenever every line the blank-skipping scan can
reach (the up to three lines directly above the label that exist) is blank —
which covers both running past the beginning of the source and reaching the
blank-line-gap limit of 3.  The embedding is a total function, so no
exception can occur. -/
theorem claim6_absence_conditions (gml : String → String) (lines : List String) :
    (∀ ln : Int, ln < 0 → getSingleDescription gml ln lines = none) ∧
      (∀ n : Nat,
        (∀ i : Nat, i < n → n ≤ i + 3 → isBlankLine (jsLine lines i) = true) →
          getSingleDescription gml (n : Int) lines = none) := by
  constructor
  · intro ln h
    exact getSingleDescription_of_neg gml ln lines h
  · intro n hb
    have hblank : ∀ j : Int, 1 ≤ j → j ≤ 3 → ¬ (((n : Nat) : Int) - j < 0) →
        isBlankLine (jsLine lines (((n : Nat) : Int) - j).toNat) = true := by
      intro j h1 h3 hge
      exact hb (((n : Nat) : Int) - j).toNat (by omega) (by omega)
    have hsb : skipBlankClosed lines ((n : Nat) : Int) = none := by
      rw [skipBlankClosed]
      by_cases c1 : ((n : Nat) : Int) - 1 < 0
      · rw [if_pos c1]
      · rw [if_neg c1, hblank 1 (by omega) (by omega) c1,
          if_neg (by simp : ¬ ((!true) = true))]
        by_cases c2 : ((n : Nat) : Int) - 2 < 0
        · rw [if_pos c2]
        · rw [if_neg c2, hblank 2 (by omega) (by omega) c2,
            if_neg (by simp : ¬ ((!true) = true))]
          by_cases c3 : ((n : Nat) : Int) - 3 < 0
          · rw [if_pos c3]
          · rw [if_neg c3, hblank 3 (by omega) (by omega) c3,
              if_neg (by simp : ¬ ((!true) = true))]
    rw [getSingleDescription_eq, hsb]

/-- Witness for C6: the sentinel yields absence, and a label at line 2 with
only blank lines above (the scan runs past the start of the file) yields
absence. -/
theorem claim6_witness :
    getSingleDescription id (-1) [";x"] = none ∧
      getSingleDescription id 2 ["", ""] = none := by
  constructor
  · exact (claim6_absence_conditions id [";x"]).1 (-1) (by omega)
  · refine (claim6_absence_conditions id ["", ""]).2 2 ?_
    intro i h1 h2
    rcases i with _ | _ | i
    · decide
    · decide
    · omega

/-- C7: comment-block contiguity and join order.  For a label at line
`n ≥ 3` whose lines `n-1` and `n-2` are comment lines (their logical text
matches optional whitespace, a semicolon, then captured text) and whose
line `n-3` is not a comment line, extraction captures exactly the two
captured texts joined with a newline in top-to-bottom file order: the
`n-2` text before the `n-1` text.  The reverse scan stops at the first
non-comment line, whether it is code or blank. -/
theorem claim7_contiguity (gml : String → String) (lines : List String) (n : Nat)
    (c1 c2 : String) (h3 : 3 ≤ n)
    (hb1 : isBlankLine (jsLine lines (n - 1)) = false)
    (hc1 : matchComment (gml (jsLine lines (n - 1))) = some c1)
    (hc2 : matchComment (gml (jsLine lines (n - 2))) = some c2)
    (hstop : matchComment (gml (jsLine lines (n - 3))) = none) :
    getSingleDescription gml (n : Int) lines = some (c2 ++ "\n" ++ c1) := by
  have e1 : (((n : Nat) : Int) - 1).toNat = n - 1 := by omega
  have hsb : skipBlankClosed lines ((n : Nat) : Int) = some (n - 1) := by
    rw [skipBlankClosed, e1, hb1]
    rw [if_neg (by omega : ¬ (((n : Nat) : Int) - 1 < 0))]
    rw [if_pos (show (!false) = true from rfl)]
  rw [getSingleDescription_eq, hsb]
  have e12 : n - 1 = (n - 2) + 1 := by omega
  have e23 : n - 2 = (n - 3) + 1 := by omega
  have hc1' : matchComment (gml (jsLine lines ((n - 2) + 1))) = some c1 := by
    rw [← e12]; exact hc1
  have hc2' : matchComment (gml (jsLine lines ((n - 3) + 1))) = some c2 := by
    rw [← e23]; exact hc2
  show some (String.intercalate "\n" (collectComments gml lines (n - 1))) = _
  rw [e12, collectComments_succ_some gml lines (n - 2) c1 hc1']
  rw [e23, collectComments_succ_some gml lines (n - 3) c2 hc2']
  rw [collectComments_of_none gml lines (n - 3) hstop]
  rfl

/-- Witness for C7: two comment lines above the label, code below them. -/
theorem claim7_witness :
    getSingleDescription id 3 ["code", ";first", ";second"] = some "first\nsecond" := by
  have h := claim7_contiguity id ["code", ";first", ";second"] 3 "second" "first"
    (by decide) (by decide) (by decide) (by decide) (by decide)
  exact h.trans (by decide)

/-- C8: running `setDescriptions` twice with the same line array leaves the
tree exactly as after running it once. -/
theorem claim8_setDescriptions_idempotent (gml : String → String) (lines : List String)
    (t : HierarchyEntry) :
    HierarchyEntry.setDescriptions gml lines (HierarchyEntry.setDescriptions gml lines t) =
      HierarchyEntry.setDescriptions gml lines t :=
  setDescriptions_idem gml lines t

/-- C9: frame conditions.  `setDescriptions` changes only descriptions:
erasing all descriptions before or after it yields the same tree, so every
line number, every child key, every child and the insertion order of every
child map are untouched.  The purified `iterate` returns an event list and
leaves the tree alone; the entries it hands to the callbacks are exactly
the tree's own (unmodified) strict-descendant nodes. -/
theorem claim9_frame_conditions (gml : String → String) (lines : List String) :
    (∀ t, eraseDescriptions (HierarchyEntry.setDescriptions gml lines t) =
        eraseDescriptions t) ∧
      (∀ (p : String) (t : HierarchyEntry),
        (enterPairs (HierarchyEntry.iterate p t)).map Prod.snd = allNodesList t.elements) := by
  constructor
  · intro t
    exact eraseDescriptions_setDescriptions gml lines t
  · intro p t
    rw [enterPairs_iterate t p, fqPreOrder_map_snd t p]

theorem collectComments_congr (gml : String → String) (l1 l2 : List String) (k : Nat)
    (h : ∀ i : Nat, i ≤ k → l1.get? i = l2.get? i) :
    collectComments gml l1 k = collectComments gml l2 k := by
  induction k with
  | zero =>
    have e : jsLine l1 0 = jsLine l2 0 := by
      unfold jsLine
      rw [h 0 (le_refl 0)]
    simp only [collectComments, e]
  | succ m ih =>
    have e : jsLine l1 (m + 1) = jsLine l2 (m + 1) := by
      unfold jsLine
      rw [h (m + 1) (le_refl _)]
    simp only [collectComments, e]
    rw [ih (fun i hi => h i (le_trans hi (Nat.le_succ m)))]

theorem skipBlankClosed_congr (n : Nat) (l1 l2 : List String)
    (h : ∀ i : Nat, i < n → l1.get? i = l2.get? i) :
    skipBlankClosed l1 ((n : Nat) : Int) = skipBlankClosed l2 ((n : Nat) : Int) := by
  have e : ∀ j : Int, 1 ≤ j → ¬ (((n : Nat) : Int) - j < 0) →
      jsLine l1 (((n : Nat) : Int) - j).toNat = jsLine l2 (((n : Nat) : Int) - j).toNat := by
    intro j h1 hge
    unfold jsLine
    rw [h (((n : Nat) : Int) - j).toNat (by omega)]
  rw [skipBlankClosed, skipBlankClosed]
  by_cases c1 : ((n : Nat) : Int) - 1 < 0
  · rw [if_pos c1, if_pos c1]
  · rw [if_neg c1, if_neg c1, e 1 (by omega) c1]
    by_cases b1 : (!isBlankLine (jsLine l2 (((n : Nat) : Int) - 1).toNat)) = true
    · rw [if_pos b1, if_pos b1]
    · rw [if_neg b1, if_neg b1]
      by_cases c2 : ((n : Nat) : Int) - 2 < 0
      · rw [if_pos c2, if_pos c2]
      · rw [if_neg c2, if_neg c2, e 2 (by omega) c2]
        by_cases b2 : (!isBlankLine (jsLine l2 (((n : Nat) : Int) - 2).toNat)) = true
        · rw [if_pos b2, if_pos b2]
        · rw [if_neg b2, if_neg b2]
          by_cases c3 : ((n : Nat) : Int) - 3 < 0
          · rw [if_pos c3, if_pos c3]
          · rw [if_neg c3, if_neg c3, e 3 (by omega) c3]

theorem skipBlankClosed_lt (lines : List String) (n : Nat) (k : Nat)
    (h : skipBlankClosed lines ((n : Nat) : Int) = some k) : k < n := by
  rw [skipBlankClosed] at h
  split_ifs at h with h1 h2 h3 h4 h5 h6
  all_goals first
  | (exact Option.noConfusion h)
  | (have hk := Option.some.inj h; omega)

/-- C10: in-bounds line access.  The result of `getSingleDescription` for a
label at line `n` depends only on the lines at indices `0 … n-1`: any two
line arrays that agree on those indices (as `Option`-valued reads, so the
agreement also covers which of the indices exist) give the same result.
Hence every line the algorithm reads lies in `[0, n-1]`, and under the
precondition `n ≤ lines.length` every read is within bounds and the
out-of-bounds fallback of the total embedding is never consulted. -/
theorem claim10_reads_in_bounds (gml : String → String) (n : Nat)
    (l1 l2 : List String) (h : ∀ i : Nat, i < n → l1.get? i = l2.get? i) :
    getSingleDescription gml (n : Int) l1 = getSingleDescription gml (n : Int) l2 := by
  rw [getSingleDescription_eq, getSingleDescription_eq, skipBlankClosed_congr n l1 l2 h]
  cases hk : skipBlankClosed l2 ((n : Nat) : Int) with
  | none => rfl
  | some k =>
    have hlt := skipBlankClosed_lt l2 n k hk
    show some (String.intercalate "\n" (collectComments gml l1 k)) = _
    rw [collectComments_congr gml l1 l2 k (fun i hi => h i (by omega))]

/-- Witness for C10: two files that differ only at the label line itself
(index 1, not read by the algorithm for a label at line 1) give the same
description. -/
theorem claim10_witness :
    getSingleDescription id 1 [";a", "X"] = getSingleDescription id 1 [";a", "Y"] := by
  refine claim10_reads_in_bounds id 1 [";a", "X"] [";a", "Y"] ?_
  intro i hi
  have h0 : i = 0 := by omega
  subst h0
  rfl
